import Mathlib

/-!
Shallow embedding of the Multiple-Strategy-Crypto backtest/optimizer core
(`backtest.py`, `combo_signals.py`, `optimizer.py`, `combo_optimizer.py`,
`config.py`).  Pandas/NumPy series are modelled as `List ℚ` (floats as exact
rationals); a pandas value that may be NaN is modelled as `Option ℚ`.
Fallible code paths (NumPy IndexError on empty arrays) are modelled with
`Option`.
-/

namespace CryptoBacktest

/-- config.py: `TRADING_FEE_PCT = 0.001`. -/
def TRADING_FEE_PCT : ℚ := 1 / 1000

/-! ### Pandas/NumPy series primitives -/

/-- `series.shift(1, fill_value=0)` (also the NumPy loop in
`_calculate_performance` that builds `shifted_positions`). -/
def shiftOne (xs : List ℚ) : List ℚ :=
  match xs with
  | [] => []
  | _ :: _ => 0 :: xs.dropLast

/-- `close.pct_change().fillna(0)`: element 0 is NaN filled to 0, element i is
`p[i]/p[i-1] - 1`.  This is also exactly the `returns` loop inside
`_calculate_performance` (`returns[0]=0; returns[i]=prices[i]/prices[i-1]-1`). -/
def pctChange (prices : List ℚ) : List ℚ :=
  match prices with
  | [] => []
  | _ :: _ => 0 :: List.zipWith (fun cur prev => cur / prev - 1) prices.tail prices

/-- `series.diff().fillna(0)`: element 0 is NaN filled to 0, element i is
`x[i] - x[i-1]` (also the `pos_change` loop of the optimized path). -/
def diffSeries (xs : List ℚ) : List ℚ :=
  match xs with
  | [] => []
  | _ :: _ => 0 :: List.zipWith (fun cur prev => cur - prev) xs.tail xs

/-- Running product accumulator for `pd.Series.cumprod()`. -/
def cumprodGo (acc : ℚ) : List ℚ → List ℚ
  | [] => []
  | x :: xs => (acc * x) :: cumprodGo (acc * x) xs

/-- `pd.Series(xs).cumprod()`. -/
def cumprod (xs : List ℚ) : List ℚ := cumprodGo 1 xs

/-- `series.ffill()` over possibly-NaN entries: a NaN (`none`) entry is
replaced by the most recent non-NaN value, if any.  Values equal to `0` are
NOT touched: pandas `ffill` fills only missing data. -/
def seriesFfill (prev : Option ℚ) : List (Option ℚ) → List (Option ℚ)
  | [] => []
  | none :: xs => prev :: seriesFfill prev xs
  | some v :: xs => some v :: seriesFfill (some v) xs

/-- `series.fillna(0)` after an `ffill`: remaining missing entries become 0. -/
def seriesFillna0 (xs : List (Option ℚ)) : List ℚ := xs.map (fun x => x.getD 0)

/-- `series.replace(to_replace=0, method="ffill")`: an entry equal to 0 is
replaced by the most recent entry that is not 0 (cascading); leading zeros
stay 0 (`prev` starts at 0). -/
def replaceZeroFfill (prev : ℚ) : List ℚ → List ℚ
  | [] => []
  | x :: xs =>
    if x = 0 then prev :: replaceZeroFfill prev xs
    else x :: replaceZeroFfill x xs

/-! ### backtest.py -/

/-- Loop body state of `_apply_min_holding_period` / the identical fallback
loop in `backtest_strategy`: walks the position and change arrays in
parallel carrying the current index `i`, the index of the last accepted
trade (`none` models the `-1` / `None` sentinel) and the output position
value of the previous index (`prev`, read by a cancellation as
`position_array[i-1]`).  A nonzero change is cancelled when a previous trade
was accepted fewer than `mhp` bars ago (`change[i] := 0`,
`position[i] := position[i-1]`); otherwise it is accepted and becomes the
last accepted trade. -/
def minHoldingGo (mhp : ℕ) : ℕ → Option ℕ → ℚ → List ℚ → List ℚ → List ℚ × List ℚ
  | i, last, prev, p :: ps, c :: cs =>
    if c ≠ 0 then
      match last with
      | some l =>
        if i - l < mhp then
          let r := minHoldingGo mhp (i + 1) (some l) prev ps cs
          (prev :: r.1, 0 :: r.2)
        else
          let r := minHoldingGo mhp (i + 1) (some i) p ps cs
          (p :: r.1, c :: r.2)
      | none =>
        let r := minHoldingGo mhp (i + 1) (some i) p ps cs
        (p :: r.1, c :: r.2)
    else
      let r := minHoldingGo mhp (i + 1) last p ps cs
      (p :: r.1, c :: r.2)
  | _, _, _, ps, cs => (ps, cs)

/-- `_apply_min_holding_period(position_array, change_array, min_holding_period)`.
The initial `prev` argument models NumPy's wrap-around `position_array[-1]`;
it is unreachable from the initial `last = none` state because a cancellation
requires a previously accepted trade. -/
def apply_min_holding_period (pos chg : List ℚ) (mhp : ℕ) : List ℚ × List ℚ :=
  minHoldingGo mhp 0 none (pos.getLastD 0) pos chg

/-- `_calculate_performance(prices, positions, position_changes, trading_fee_pct,
initial_capital)`: per-bar returns from prices, positions lagged one bar,
growth factors `1 + strategy_return`, fee factor `1 - fee` on each bar with a
nonzero position change, portfolio compounded from `initial_capital`. -/
def calculate_performance (prices positions position_changes : List ℚ)
    (trading_fee_pct initial_capital : ℚ) : ℚ × ℚ × ℕ :=
  let returns := pctChange prices
  let shifted := shiftOne positions
  let strategyReturns := List.zipWith (fun a b => a * b) shifted returns
  let growthFactors := strategyReturns.map (fun r => 1 + r)
  let feeFactors := position_changes.map (fun c => if c ≠ 0 then 1 - trading_fee_pct else 1)
  let portfolioValue := initial_capital * (List.zipWith (fun a b => a * b) growthFactors feeFactors).prod
  let numTrades := position_changes.countP (fun c => decide (c ≠ 0))
  (portfolioValue / initial_capital - 1, portfolioValue, numTrades)

/-- Forward-fill loop of `backtest_strategy_optimized`
(`position[i] = raw_signal[i] if raw_signal[i] != 0 else position[i-1]`). -/
def fillPositions (prev : ℚ) : List ℚ → List ℚ
  | [] => []
  | r :: rs =>
    let v := if r ≠ 0 then r else prev
    v :: fillPositions v rs

/-- `backtest_strategy_optimized(df, initial_capital, min_holding_period,
precomputed_returns)`.  Returns `none` when the NumPy code raises
(`position[0] = raw_signal[0]` IndexErrors on an empty frame).  The local
`returns` that the Python function computes from `precomputed_returns` is
dead code: `_calculate_performance` recomputes returns from `prices`, so the
result does not depend on `precomputed_returns`. -/
def backtest_strategy_optimized (prices signal : List ℚ) (initial_capital : ℚ)
    (min_holding_period : ℕ) (_precomputed_returns : Option (List ℚ)) :
    Option (ℚ × ℚ × ℕ) :=
  match signal with
  | [] => none
  | s0 :: rest =>
    let position := s0 :: fillPositions s0 rest
    let posChange := diffSeries position
    let pr :=
      if 0 < min_holding_period then apply_min_holding_period position posChange min_holding_period
      else (position, posChange)
    some (calculate_performance prices pr.1 pr.2 TRADING_FEE_PCT initial_capital)

/-- Steps 5-8 of the pandas reference implementation inside
`backtest_strategy` (number of trades, lagged strategy returns, growth and
fee factors, cumulative product, final value with the empty-series guard). -/
def referencePerformance (returns position posChange : List ℚ)
    (initial_capital : ℚ) : ℚ × ℚ × ℕ :=
  let numTrades := posChange.countP (fun c => decide (c ≠ 0))
  let shifted := shiftOne position
  let strategyReturns := List.zipWith (fun a b => a * b) shifted returns
  let growthFactor := strategyReturns.map (fun r => 1 + r)
  let feeFactor := posChange.map (fun c => if c ≠ 0 then 1 - TRADING_FEE_PCT else 1)
  let combinedFactor := List.zipWith (fun a b => a * b) growthFactor feeFactor
  let cumulativeFactor := cumprod combinedFactor
  let finalPortfolioValue :=
    match cumulativeFactor.getLast? with
    | some x => initial_capital * x
    | none => initial_capital
  (finalPortfolioValue / initial_capital - 1, finalPortfolioValue, numTrades)

/-- Reference pandas implementation in `backtest_strategy` (the code after
the fallback point): `position = raw_signal.ffill().fillna(0)` — note that
pandas `ffill` fills only NaN entries, and the signal column holds no NaN in
this model — then `pos_change = position.diff().fillna(0)`, the min-holding
loop (identical to `_apply_min_holding_period`), and the cumulative-product
performance computation. -/
def backtest_strategy_reference (prices signal : List ℚ) (initial_capital : ℚ)
    (min_holding_period : ℕ) (precomputed_returns : Option (List ℚ)) : ℚ × ℚ × ℕ :=
  let returns :=
    match precomputed_returns with
    | some r => r
    | none => pctChange prices
  let position := seriesFillna0 (seriesFfill none (signal.map some))
  let posChange := diffSeries position
  let pr :=
    if 0 < min_holding_period then apply_min_holding_period position posChange min_holding_period
    else (position, posChange)
  referencePerformance returns pr.1 pr.2 initial_capital

/-- `backtest_strategy(df, initial_capital, min_holding_period,
precomputed_returns)`: try the optimized path; on an exception fall back to
the pandas reference implementation. -/
def backtest_strategy (prices signal : List ℚ) (initial_capital : ℚ)
    (min_holding_period : ℕ) (precomputed_returns : Option (List ℚ)) : ℚ × ℚ × ℕ :=
  match backtest_strategy_optimized prices signal initial_capital min_holding_period
      precomputed_returns with
  | some r => r
  | none =>
    backtest_strategy_reference prices signal initial_capital min_holding_period
      precomputed_returns

/-- `buy_and_hold(df, initial_capital)`. -/
def buy_and_hold (prices : List ℚ) (initial_capital : ℚ) : ℚ × ℚ :=
  match prices with
  | [] => (0, initial_capital)
  | p0 :: _ =>
    let totalReturn := prices.getLastD 0 / p0 - 1
    (totalReturn, initial_capital * (1 + totalReturn))

/-! ### combo_signals.py -/

/-- The logical operators accepted by `combine_signals`
(`buy_operator, sell_operator ∈ set containing AND and OR`; the Python code
treats any string other than "AND" as OR). -/
inductive LogicOp where
  | AND : LogicOp
  | OR : LogicOp
deriving DecidableEq

/-- `(combined == 1).all(axis=1)` / `(combined == 1).any(axis=1)` on one row
of the side-by-side signal matrix. -/
def buyMaskRow (op : LogicOp) (row : List ℚ) : Bool :=
  match op with
  | .AND => row.all (fun x => decide (x = 1))
  | .OR => row.any (fun x => decide (x = 1))

/-- `(combined == -1).all(axis=1)` / `(combined == -1).any(axis=1)` on one
row of the side-by-side signal matrix. -/
def sellMaskRow (op : LogicOp) (row : List ℚ) : Bool :=
  match op with
  | .AND => row.all (fun x => decide (x = -1))
  | .OR => row.any (fun x => decide (x = -1))

/-- `combine_signals(signal_dfs, buy_operator, sell_operator)`: the aligned
signal series are put side by side; per index the combined value starts at 0,
is set to 1 on the buy mask and then to -1 on the sell mask (sell overwrites
buy), and finally zeros are forward-filled by
`replace(to_replace=0, method="ffill")`. -/
def combine_signals (signal_dfs : List (List ℚ)) (buy_operator sell_operator : LogicOp) :
    List ℚ :=
  let n := (signal_dfs.headD []).length
  let raw := (List.range n).map (fun i =>
    let row := signal_dfs.map (fun s => s.getD i 0)
    if sellMaskRow sell_operator row then -1
    else if buyMaskRow buy_operator row then 1
    else 0)
  replaceZeroFfill 0 raw

/-! ### optimizer.py -/

/-- A parameter set (Python dict of keyword arguments), modelled as an
insertion-ordered association list. -/
abbrev Params := List (String × ℚ)

/-- `itertools.product(*param_grid.values())`: the leftmost list is the
outermost loop. -/
def valuesProduct : List (List ℚ) → List (List ℚ)
  | [] => [[]]
  | vs :: rest => vs.flatMap (fun v => (valuesProduct rest).map (fun tail => v :: tail))

/-- `generate_param_dicts(param_grid)`: an empty (falsy) grid yields `[{}]`,
otherwise one dict per tuple of the Cartesian product, built by
`dict(zip(keys, vals))`. -/
def generate_param_dicts (param_grid : List (String × List ℚ)) : List Params :=
  match param_grid with
  | [] => [[]]
  | _ =>
    (valuesProduct (param_grid.map Prod.snd)).map
      (fun vals => List.zip (param_grid.map Prod.fst) vals)

/-- Signal-cache key: the Python code hashes the string
`strategy_name + sorted(params.items()) + hash(tuple(close_prices))`; the
key is modelled injectively by the tuple itself (strategy name, parameter
set, close-price sequence). -/
abbrev CacheKey := String × Params × List ℚ

/-- Association-list lookup over the cache dict (`cache_key in self.cache`).
Models Python dict membership; entries are kept in insertion order. -/
def assocFind {V : Type} (k : CacheKey) : List (CacheKey × V) → Option V
  | [] => none
  | (k', v) :: rest => if k = k' then some v else assocFind k rest

/-- `SignalCache`: a bounded insertion-ordered mapping from cache keys to
signal series. -/
structure SignalCache (V : Type) where
  cache : List (CacheKey × V)
  max_size : ℕ

/-- `SignalCache.get(strategy_name, df, **params)`: on a hit return the
stored series (the returned `Bool` is `false`: the strategy function was not
invoked); on a miss compute the signal with the strategy function, evict the
oldest `max_size // 2` entries if the stored count has reached `max_size`,
store the new entry at the end, and return it with `true`. -/
def SignalCache.get {V : Type} (c : SignalCache V) (strategyFn : CacheKey → V)
    (k : CacheKey) : V × SignalCache V × Bool :=
  match assocFind k c.cache with
  | some v => (v, c, false)
  | none =>
    let v := strategyFn k
    let trimmed :=
      if c.max_size ≤ c.cache.length then c.cache.drop (c.max_size / 2) else c.cache
    (v, { c with cache := trimmed ++ [(k, v)] }, true)

/-- A sequence of `SignalCache.get` calls (the optimizer's repeated
cache-mediated signal fetches), threading the cache through. -/
def runCacheCalls {V : Type} (strategyFn : CacheKey → V) :
    SignalCache V → List CacheKey → SignalCache V :=
  fun c ks => ks.foldl (fun c k => (c.get strategyFn k).2.1) c

/-- Lagged strategy returns `signal.shift(1, fill_value=0) * precomputed_returns`
(common to `_evaluate_strategy_params`, `optimize_single_strategies` and
`optimize_strategy_combo`). -/
def laggedReturns (signal returns : List ℚ) : List ℚ :=
  List.zipWith (fun a b => a * b) (shiftOne signal) returns

/-- `series.mean()`. -/
def seriesMean (xs : List ℚ) : ℚ := xs.sum / xs.length

/-- Sum of squared deviations from the mean (the numerator of the sample
variance used by `series.std()`). -/
def sumSqDev (xs : List ℚ) : ℚ := (xs.map (fun x => (x - seriesMean xs) ^ 2)).sum

/-- Characterization of `series.std()` (pandas sample standard deviation,
`ddof=1`): NaN — modelled `none` — on fewer than two observations, otherwise
the nonnegative square root of `sumSqDev / (n - 1)`.  The square root is
characterized by its square rather than computed, since it is irrational in
general. -/
def IsStd (xs : List ℚ) (sd : Option ℚ) : Prop :=
  (xs.length < 2 → sd = none) ∧
  (2 ≤ xs.length → ∃ s, sd = some s ∧ 0 ≤ s ∧ s ^ 2 * ((xs.length : ℚ) - 1) = sumSqDev xs)

/-- `sharpe_ratio = (strat_returns.mean() / std_dev) if std_dev > 0 else 0.0`;
a NaN standard deviation (`none`) fails the `> 0` comparison and also yields
`0.0`. -/
def sharpeFromStd (m : ℚ) (sd : Option ℚ) : ℚ :=
  match sd with
  | some s => if 0 < s then m / s else 0
  | none => 0

/-- Scoring tail of `_evaluate_strategy_params` (identical in
`optimize_single_strategies` and `optimize_strategy_combo`): Sharpe from the
lagged strategy returns, then
`score = (1 - w) * performance + w * sharpe_ratio - penalty_factor * num_trades`.
The standard deviation of the lagged returns is passed in as `sd` (see
`IsStd`). -/
def evaluateScore (signal returns : List ℚ) (sd : Option ℚ)
    (sharpe_ratio_weight penalty_factor performance : ℚ) (num_trades : ℕ) : ℚ :=
  let stratReturns := laggedReturns signal returns
  let sharpeRat := sharpeFromStd (seriesMean stratReturns) sd
  (1 - sharpe_ratio_weight) * performance + sharpe_ratio_weight * sharpeRat -
    penalty_factor * (num_trades : ℚ)

/-- Result-reduction of `optimize_strategy_parallel`: each successful worker
result is `(score, performance, final_portfolio, num_trades, params)`;
`max(results, key=score)` keeps the first maximal element; with zero
successful results the fallback `({}, 0.0, initial_capital, 0)` is
returned. -/
def parallelSelectBest (results : List (ℚ × ℚ × ℚ × ℕ × Params))
    (initial_capital : ℚ) : Params × ℚ × ℚ × ℕ :=
  let best := results.foldl
    (fun acc r =>
      match acc with
      | none => some r
      | some a => if a.1 < r.1 then some r else some a)
    none
  match best with
  | some b => (b.2.2.2.2, b.1, b.2.2.1, b.2.2.2.1)
  | none => ([], 0, initial_capital, 0)

/-! ### combo_optimizer.py -/

/-- Best-candidate accumulator of `optimize_strategy_combo`:
`best_params_combo = None`, `best_score = float("-inf")` (modelled `⊥` in
`WithBot ℚ`), `best_portfolio_value = 0`, `best_num_trades = 0`. -/
structure ComboBest (P : Type) where
  params : Option P
  score : WithBot ℚ
  portfolio : ℚ
  trades : ℕ

/-- Candidate-reduction loop of `optimize_strategy_combo`: every evaluated
candidate `(params, score, portfolio_value, num_trades)` replaces the
accumulator when `score > best_score`; the function then returns
`(best_params_combo, best_score, best_portfolio_value, best_num_trades)`. -/
def comboSelectBest {P : Type} (evals : List (P × ℚ × ℚ × ℕ)) : ComboBest P :=
  evals.foldl
    (fun best e =>
      if best.score < ((e.2.1 : ℚ) : WithBot ℚ) then
        { params := some e.1, score := ((e.2.1 : ℚ) : WithBot ℚ),
          portfolio := e.2.2.1, trades := e.2.2.2 }
      else best)
    ⟨none, ⊥, 0, 0⟩

/-! ### Helper lemmas -/

theorem assocFind_drop_of_none {V : Type} (k : CacheKey) :
    ∀ (l : List (CacheKey × V)) (m : ℕ), assocFind k l = none →
      assocFind k (l.drop m) = none := by
  intro l
  induction l with
  | nil => intro m _; simp [assocFind]
  | cons x rest ih =>
    intro m h
    rcases x with ⟨k', v⟩
    have hne : ¬ k = k' := by
      intro he
      simp [assocFind, he] at h
    have hrest : assocFind k rest = none := by
      simpa [assocFind, hne] using h
    cases m with
    | zero => simpa [assocFind, hne] using hrest
    | succ m => simpa using ih m hrest

theorem assocFind_append_self {V : Type} (k : CacheKey) (v : V) :
    ∀ l : List (CacheKey × V), assocFind k l = none →
      assocFind k (l ++ [(k, v)]) = some v := by
  intro l
  induction l with
  | nil => intro _; simp [assocFind]
  | cons x rest ih =>
    intro h
    rcases x with ⟨k', w⟩
    have hne : ¬ k = k' := by
      intro he
      simp [assocFind, he] at h
    have hrest : assocFind k rest = none := by
      simpa [assocFind, hne] using h
    simpa [assocFind, hne] using ih hrest

theorem SignalCache.get_preserves_bound {V : Type} (f : CacheKey → V)
    (c : SignalCache V) (k : CacheKey) (h2 : 2 ≤ c.max_size)
    (hb : c.cache.length ≤ c.max_size) :
    ((c.get f k).2.1).cache.length ≤ c.max_size ∧
      ((c.get f k).2.1).max_size = c.max_size := by
  cases h : assocFind k c.cache with
  | some v => simp [SignalCache.get, h, hb]
  | none =>
    by_cases hfull : c.max_size ≤ c.cache.length
    · have hlen : c.cache.length = c.max_size := le_antisymm hb hfull
      constructor
      · simp only [SignalCache.get, h, if_pos hfull]
        simp only [List.length_append, List.length_drop, List.length_singleton, hlen]
        omega
      · simp [SignalCache.get, h]
    · constructor
      · simp only [SignalCache.get, h, if_neg hfull]
        simp only [List.length_append, List.length_singleton]
        omega
      · simp [SignalCache.get, h]

theorem runCacheCalls_bound {V : Type} (f : CacheKey → V) :
    ∀ (ks : List CacheKey) (c : SignalCache V), 2 ≤ c.max_size →
      c.cache.length ≤ c.max_size →
      (runCacheCalls f c ks).cache.length ≤ c.max_size ∧
        (runCacheCalls f c ks).max_size = c.max_size := by
  intro ks
  induction ks with
  | nil => intro c _ hb; exact ⟨hb, rfl⟩
  | cons k rest ih =>
    intro c h2 hb
    have hstep := SignalCache.get_preserves_bound f c k h2 hb
    have hrec := ih ((c.get f k).2.1) (hstep.2 ▸ h2) (hstep.2 ▸ hstep.1)
    refine ⟨?_, ?_⟩
    · simpa [runCacheCalls, hstep.2] using hrec.1
    · simpa [runCacheCalls, hstep.2] using hrec.2

theorem comboSelectBest_foldl_ne_bot {P : Type} :
    ∀ (l : List (P × ℚ × ℚ × ℕ)) (b : ComboBest P), b.score ≠ ⊥ →
      (l.foldl
        (fun best e =>
          if best.score < ((e.2.1 : ℚ) : WithBot ℚ) then
            ({ params := some e.1, score := ((e.2.1 : ℚ) : WithBot ℚ),
               portfolio := e.2.2.1, trades := e.2.2.2 } : ComboBest P)
          else best) b).score ≠ ⊥ := by
  intro l
  induction l with
  | nil => intro b hb; exact hb
  | cons e rest ih =>
    intro b hb
    simp only [List.foldl_cons]
    by_cases hlt : b.score < ((e.2.1 : ℚ) : WithBot ℚ)
    · rw [if_pos hlt]
      exact ih _ (by simp)
    · rw [if_neg hlt]
      exact ih _ hb

theorem minHoldingGo_cons_skip (mhp i : ℕ) (last : Option ℕ) (prev p c : ℚ)
    (ps cs : List ℚ) (hc : c = 0) :
    minHoldingGo mhp i last prev (p :: ps) (c :: cs) =
      (p :: (minHoldingGo mhp (i + 1) last p ps cs).1,
       c :: (minHoldingGo mhp (i + 1) last p ps cs).2) := by
  subst hc; simp [minHoldingGo]

theorem minHoldingGo_cons_first (mhp i : ℕ) (prev p c : ℚ) (ps cs : List ℚ)
    (hc : c ≠ 0) :
    minHoldingGo mhp i none prev (p :: ps) (c :: cs) =
      (p :: (minHoldingGo mhp (i + 1) (some i) p ps cs).1,
       c :: (minHoldingGo mhp (i + 1) (some i) p ps cs).2) := by
  simp [minHoldingGo, hc]

theorem minHoldingGo_cons_cancel (mhp i l : ℕ) (prev p c : ℚ) (ps cs : List ℚ)
    (hc : c ≠ 0) (hlt : i - l < mhp) :
    minHoldingGo mhp i (some l) prev (p :: ps) (c :: cs) =
      (prev :: (minHoldingGo mhp (i + 1) (some l) prev ps cs).1,
       0 :: (minHoldingGo mhp (i + 1) (some l) prev ps cs).2) := by
  simp [minHoldingGo, hc, hlt]

theorem minHoldingGo_cons_accept (mhp i l : ℕ) (prev p c : ℚ) (ps cs : List ℚ)
    (hc : c ≠ 0) (hge : ¬ i - l < mhp) :
    minHoldingGo mhp i (some l) prev (p :: ps) (c :: cs) =
      (p :: (minHoldingGo mhp (i + 1) (some i) p ps cs).1,
       c :: (minHoldingGo mhp (i + 1) (some i) p ps cs).2) := by
  simp [minHoldingGo, hc, hge]

/-- Acceptance characterization of the min-holding-period pass: an index of
the output change array is nonzero exactly when the input change was nonzero,
the gap to the incoming last-accepted index (if any) is at least `mhp`, and
the gap to every earlier accepted index of the output is at least `mhp`. -/
theorem minHoldingGo_acceptance (mhp : ℕ) :
    ∀ (cs ps : List ℚ) (i : ℕ) (last : Option ℕ) (prev : ℚ),
      ps.length = cs.length →
      (∀ l, last = some l → l < i) →
      ∀ k,
        ((minHoldingGo mhp i last prev ps cs).2.getD k 0 ≠ 0 ↔
          (cs.getD k 0 ≠ 0 ∧
           (∀ l, last = some l → mhp ≤ i + k - l) ∧
           (∀ j, j < k → (minHoldingGo mhp i last prev ps cs).2.getD j 0 ≠ 0 →
             mhp ≤ k - j))) := by
  intro cs
  induction cs with
  | nil =>
    intro ps i last prev hlen _ k
    have hps : ps = [] := List.length_eq_zero.mp (by simpa using hlen)
    subst hps
    simp [minHoldingGo]
  | cons c cs ih =>
    intro ps i last prev hlen hlast k
    cases ps with
    | nil => simp at hlen
    | cons p ps =>
      have hlen' : ps.length = cs.length := by simpa using hlen
      by_cases hc : c = 0
      · rw [minHoldingGo_cons_skip mhp i last prev p c ps cs hc]
        rcases k with _ | k
        · subst hc; simp
        · have hIH := ih ps (i + 1) last p hlen'
            (fun l hl => Nat.lt_succ_of_lt (hlast l hl)) k
          simp only [List.getD_cons_succ]
          rw [hIH]
          constructor
          · rintro ⟨h1, h2, h3⟩
            refine ⟨h1, ?_, ?_⟩
            · intro l hl; have := h2 l hl; omega
            · intro j hj hjne
              rcases j with _ | j
              · rw [List.getD_cons_zero, hc] at hjne; exact absurd rfl hjne
              · rw [List.getD_cons_succ] at hjne
                have := h3 j (by omega) hjne
                omega
          · rintro ⟨h1, h2, h3⟩
            refine ⟨h1, ?_, ?_⟩
            · intro l hl; have := h2 l hl; omega
            · intro j hj hjne
              have := h3 (j + 1) (by omega) (by rw [List.getD_cons_succ]; exact hjne)
              omega
      · cases last with
        | none =>
          rw [minHoldingGo_cons_first mhp i prev p c ps cs hc]
          rcases k with _ | k
          · simp [hc]
          · have hIH := ih ps (i + 1) (some i) p hlen'
              (fun l hl => by cases hl; omega) k
            simp only [List.getD_cons_succ]
            rw [hIH]
            constructor
            · rintro ⟨h1, h2, h3⟩
              refine ⟨h1, by simp, ?_⟩
              intro j hj hjne
              rcases j with _ | j
              · have := h2 i rfl; omega
              · rw [List.getD_cons_succ] at hjne
                have := h3 j (by omega) hjne
                omega
            · rintro ⟨h1, _, h3⟩
              refine ⟨h1, ?_, ?_⟩
              · intro l hl
                cases hl
                have := h3 0 (by omega) (by rw [List.getD_cons_zero]; exact hc)
                omega
              · intro j hj hjne
                have := h3 (j + 1) (by omega) (by rw [List.getD_cons_succ]; exact hjne)
                omega
        | some l0 =>
          have hl0 : l0 < i := hlast l0 rfl
          by_cases hcan : i - l0 < mhp
          · rw [minHoldingGo_cons_cancel mhp i l0 prev p c ps cs hc hcan]
            rcases k with _ | k
            · simp only [List.getD_cons_zero]
              constructor
              · intro h; exact absurd rfl h
              · rintro ⟨h1, h2, _⟩
                have := h2 l0 rfl
                omega
            · have hIH := ih ps (i + 1) (some l0) prev hlen'
                (fun l hl => by cases hl; omega) k
              simp only [List.getD_cons_succ]
              rw [hIH]
              constructor
              · rintro ⟨h1, h2, h3⟩
                refine ⟨h1, ?_, ?_⟩
                · intro l hl; cases hl; have := h2 l0 rfl; omega
                · intro j hj hjne
                  rcases j with _ | j
                  · rw [List.getD_cons_zero] at hjne; exact absurd rfl hjne
                  · rw [List.getD_cons_succ] at hjne
                    have := h3 j (by omega) hjne
                    omega
              · rintro ⟨h1, h2, h3⟩
                refine ⟨h1, ?_, ?_⟩
                · intro l hl; cases hl; have := h2 l0 rfl; omega
                · intro j hj hjne
                  have := h3 (j + 1) (by omega) (by rw [List.getD_cons_succ]; exact hjne)
                  omega
          · rw [minHoldingGo_cons_accept mhp i l0 prev p c ps cs hc hcan]
            rcases k with _ | k
            · simp only [List.getD_cons_zero]
              constructor
              · intro h
                refine ⟨h, ?_, ?_⟩
                · intro l hl; cases hl; omega
                · intro j hj; omega
              · rintro ⟨h1, _, _⟩; exact h1
            · have hIH := ih ps (i + 1) (some i) p hlen'
                (fun l hl => by cases hl; omega) k
              simp only [List.getD_cons_succ]
              rw [hIH]
              constructor
              · rintro ⟨h1, h2, h3⟩
                have hk1 : mhp ≤ k + 1 := by have := h2 i rfl; omega
                refine ⟨h1, ?_, ?_⟩
                · intro l hl; cases hl; omega
                · intro j hj hjne
                  rcases j with _ | j
                  · omega
                  · rw [List.getD_cons_succ] at hjne
                    have := h3 j (by omega) hjne
                    omega
              · rintro ⟨h1, h2, h3⟩
                refine ⟨h1, ?_, ?_⟩
                · intro l hl
                  cases hl
                  have := h3 0 (by omega) (by rw [List.getD_cons_zero]; exact hc)
                  omega
                · intro j hj hjne
                  have := h3 (j + 1) (by omega) (by rw [List.getD_cons_succ]; exact hjne)
                  omega

/-- Frame step for an untouched or accepted index: the head values pass
through and the tail behaves as the recursive call with `prev` set to the
head of the output position list. -/
theorem minHoldingGo_frame_cons_aux (prev p c : ℚ) (T1 T2 ps cs : List ℚ)
    (hIH : ∀ k, (T1.getD k 0 = ps.getD k 0 ∧ T2.getD k 0 = cs.getD k 0) ∨
      (cs.getD k 0 ≠ 0 ∧ T2.getD k 0 = 0 ∧
       T1.getD k 0 = (if k = 0 then p else T1.getD (k - 1) 0))) :
    ∀ k, (((p :: T1).getD k 0 = (p :: ps).getD k 0 ∧
           (c :: T2).getD k 0 = (c :: cs).getD k 0) ∨
      ((c :: cs).getD k 0 ≠ 0 ∧ (c :: T2).getD k 0 = 0 ∧
       (p :: T1).getD k 0 = (if k = 0 then prev else (p :: T1).getD (k - 1) 0))) := by
  intro k
  rcases k with _ | k
  · exact Or.inl ⟨by simp, by simp⟩
  · rcases hIH k with ⟨h1, h2⟩ | ⟨h1, h2, h3⟩
    · exact Or.inl ⟨by simpa using h1, by simpa using h2⟩
    · right
      refine ⟨by simpa using h1, by simpa using h2, ?_⟩
      rcases k with _ | k
      · simpa using h3
      · simpa using h3

/-- Frame step for a cancelled index: the output head is `prev`
(`position[i] := position[i-1]`) and the change head is zeroed. -/
theorem minHoldingGo_frame_cancel_aux (prev p c : ℚ) (hc : c ≠ 0)
    (T1 T2 ps cs : List ℚ)
    (hIH : ∀ k, (T1.getD k 0 = ps.getD k 0 ∧ T2.getD k 0 = cs.getD k 0) ∨
      (cs.getD k 0 ≠ 0 ∧ T2.getD k 0 = 0 ∧
       T1.getD k 0 = (if k = 0 then prev else T1.getD (k - 1) 0))) :
    ∀ k, (((prev :: T1).getD k 0 = (p :: ps).getD k 0 ∧
           (0 :: T2).getD k 0 = (c :: cs).getD k 0) ∨
      ((c :: cs).getD k 0 ≠ 0 ∧ (0 :: T2).getD k 0 = 0 ∧
       (prev :: T1).getD k 0 =
         (if k = 0 then prev else (prev :: T1).getD (k - 1) 0))) := by
  intro k
  rcases k with _ | k
  · exact Or.inr ⟨by simpa using hc, by simp, by simp⟩
  · rcases hIH k with ⟨h1, h2⟩ | ⟨h1, h2, h3⟩
    · exact Or.inl ⟨by simpa using h1, by simpa using h2⟩
    · right
      refine ⟨by simpa using h1, by simpa using h2, ?_⟩
      rcases k with _ | k
      · simpa using h3
      · simpa using h3

/-- Frame property of the min-holding-period pass: every index either passes
both arrays through unchanged, or is a cancelled trade attempt whose change
is zeroed and whose position is copied from the previous output position
(`prev` for the first processed index). -/
theorem minHoldingGo_frame (mhp : ℕ) :
    ∀ (cs ps : List ℚ) (i : ℕ) (last : Option ℕ) (prev : ℚ),
      ∀ k,
        (((minHoldingGo mhp i last prev ps cs).1.getD k 0 = ps.getD k 0 ∧
          (minHoldingGo mhp i last prev ps cs).2.getD k 0 = cs.getD k 0) ∨
         (cs.getD k 0 ≠ 0 ∧
          (minHoldingGo mhp i last prev ps cs).2.getD k 0 = 0 ∧
          (minHoldingGo mhp i last prev ps cs).1.getD k 0 =
            (if k = 0 then prev
             else (minHoldingGo mhp i last prev ps cs).1.getD (k - 1) 0))) := by
  intro cs
  induction cs with
  | nil =>
    intro ps i last prev k
    cases ps <;> simp [minHoldingGo]
  | cons c cs ih =>
    intro ps i last prev k
    cases ps with
    | nil => simp [minHoldingGo]
    | cons p ps =>
      by_cases hc : c = 0
      · rw [minHoldingGo_cons_skip mhp i last prev p c ps cs hc]
        exact minHoldingGo_frame_cons_aux prev p c _ _ ps cs
          (ih ps (i + 1) last p) k
      · cases last with
        | none =>
          rw [minHoldingGo_cons_first mhp i prev p c ps cs hc]
          exact minHoldingGo_frame_cons_aux prev p c _ _ ps cs
            (ih ps (i + 1) (some i) p) k
        | some l0 =>
          by_cases hcan : i - l0 < mhp
          · rw [minHoldingGo_cons_cancel mhp i l0 prev p c ps cs hc hcan]
            exact minHoldingGo_frame_cancel_aux prev p c hc _ _ ps cs
              (ih ps (i + 1) (some l0) prev) k
          · rw [minHoldingGo_cons_accept mhp i l0 prev p c ps cs hc hcan]
            exact minHoldingGo_frame_cons_aux prev p c _ _ ps cs
              (ih ps (i + 1) (some i) p) k

/-- With no previously accepted trade (`last = none`), index 0 is never a
cancellation: both heads pass through unchanged. -/
theorem minHoldingGo_none_head (mhp i : ℕ) (prev : ℚ) (ps cs : List ℚ) :
    (minHoldingGo mhp i none prev ps cs).1.getD 0 0 = ps.getD 0 0 ∧
      (minHoldingGo mhp i none prev ps cs).2.getD 0 0 = cs.getD 0 0 := by
  cases ps with
  | nil => cases cs <;> simp [minHoldingGo]
  | cons p ps =>
    cases cs with
    | nil => simp [minHoldingGo]
    | cons c cs =>
      by_cases hc : c = 0
      · rw [minHoldingGo_cons_skip mhp i none prev p c ps cs hc]; simp
      · rw [minHoldingGo_cons_first mhp i prev p c ps cs hc]; simp

/-- Buy condition of the signal combiner, stated over the input series: with
`AND` every aligned input equals +1 at the index, with `OR` some input does. -/
def BuyCondition (signal_dfs : List (List ℚ)) (op : LogicOp) (i : ℕ) : Prop :=
  match op with
  | .AND => ∀ s ∈ signal_dfs, s.getD i 0 = 1
  | .OR => ∃ s ∈ signal_dfs, s.getD i 0 = 1

/-- Sell condition of the signal combiner, analogous with -1. -/
def SellCondition (signal_dfs : List (List ℚ)) (op : LogicOp) (i : ℕ) : Prop :=
  match op with
  | .AND => ∀ s ∈ signal_dfs, s.getD i 0 = -1
  | .OR => ∃ s ∈ signal_dfs, s.getD i 0 = -1

instance (signal_dfs : List (List ℚ)) (op : LogicOp) (i : ℕ) :
    Decidable (BuyCondition signal_dfs op i) := by
  unfold BuyCondition
  cases op
  · exact List.decidableBAll _ _
  · exact List.decidableBEx _ _

instance (signal_dfs : List (List ℚ)) (op : LogicOp) (i : ℕ) :
    Decidable (SellCondition signal_dfs op i) := by
  unfold SellCondition
  cases op
  · exact List.decidableBAll _ _
  · exact List.decidableBEx _ _

theorem buyMaskRow_iff (signal_dfs : List (List ℚ)) (op : LogicOp) (i : ℕ) :
    buyMaskRow op (signal_dfs.map (fun s => s.getD i 0)) = true ↔
      BuyCondition signal_dfs op i := by
  cases op <;>
    simp [buyMaskRow, BuyCondition, List.all_map, List.any_map, Function.comp]

theorem sellMaskRow_iff (signal_dfs : List (List ℚ)) (op : LogicOp) (i : ℕ) :
    sellMaskRow op (signal_dfs.map (fun s => s.getD i 0)) = true ↔
      SellCondition signal_dfs op i := by
  cases op <;>
    simp [sellMaskRow, SellCondition, List.all_map, List.any_map, Function.comp]

theorem getD_range_map {α : Type} (f : ℕ → α) (n i : ℕ) (d : α) (h : i < n) :
    ((List.range n).map f).getD i d = f i := by
  rw [List.getD_eq_getElem?_getD, List.getElem?_map, List.getElem?_range h]
  rfl

theorem replaceZeroFfill_length (prev : ℚ) (xs : List ℚ) :
    (replaceZeroFfill prev xs).length = xs.length := by
  induction xs generalizing prev with
  | nil => rfl
  | cons x xs ih =>
    by_cases hx : x = 0 <;> simp [replaceZeroFfill, hx, ih]

theorem getD_cons_pred (h' : ℚ) (T : List ℚ) (i : ℕ) :
    (h' :: T).getD i 0 = if i = 0 then h' else T.getD (i - 1) 0 := by
  rcases i with _ | i <;> simp

theorem replaceZeroFfill_getD (xs : List ℚ) :
    ∀ (prev : ℚ) (i : ℕ), i < xs.length →
      (replaceZeroFfill prev xs).getD i 0 =
        (if xs.getD i 0 ≠ 0 then xs.getD i 0
         else if i = 0 then prev else (replaceZeroFfill prev xs).getD (i - 1) 0) := by
  induction xs with
  | nil => intro prev i h; simp at h
  | cons x xs ih =>
    intro prev i h
    have hcons : replaceZeroFfill prev (x :: xs) =
        (if x = 0 then prev else x) :: replaceZeroFfill (if x = 0 then prev else x) xs := by
      by_cases hx : x = 0 <;> simp [replaceZeroFfill, hx]
    rcases i with _ | i
    · rw [hcons]
      by_cases hx : x = 0 <;> simp [hx]
    · have hi : i < xs.length := by simpa using h
      rw [hcons]
      simp only [List.getD_cons_succ]
      rw [ih (if x = 0 then prev else x) i hi, getD_cons_pred]
      simp

theorem combine_raw_getD (signal_dfs : List (List ℚ)) (buyOp sellOp : LogicOp)
    (i : ℕ) (h : i < (signal_dfs.headD []).length) :
    (((List.range (signal_dfs.headD []).length).map (fun j =>
        let row := signal_dfs.map (fun s => s.getD j 0)
        if sellMaskRow sellOp row then (-1 : ℚ)
        else if buyMaskRow buyOp row then 1
        else 0)).getD i 0) =
      (if SellCondition signal_dfs sellOp i then (-1 : ℚ)
       else if BuyCondition signal_dfs buyOp i then 1
       else 0) := by
  rw [getD_range_map _ _ _ _ h]
  by_cases hs : SellCondition signal_dfs sellOp i
  · rw [if_pos ((sellMaskRow_iff signal_dfs sellOp i).mpr hs), if_pos hs]
  · rw [if_neg (fun hb => hs ((sellMaskRow_iff signal_dfs sellOp i).mp hb)), if_neg hs]
    by_cases hb : BuyCondition signal_dfs buyOp i
    · rw [if_pos ((buyMaskRow_iff signal_dfs buyOp i).mpr hb), if_pos hb]
    · rw [if_neg (fun hx => hb ((buyMaskRow_iff signal_dfs buyOp i).mp hx)), if_neg hb]

theorem combine_recurrence (signal_dfs : List (List ℚ)) (buyOp sellOp : LogicOp)
    (i : ℕ) (h : i < (signal_dfs.headD []).length) :
    (combine_signals signal_dfs buyOp sellOp).getD i 0 =
      (if SellCondition signal_dfs sellOp i then -1
       else if BuyCondition signal_dfs buyOp i then 1
       else if i = 0 then 0
       else (combine_signals signal_dfs buyOp sellOp).getD (i - 1) 0) := by
  have hraw : i < ((List.range (signal_dfs.headD []).length).map (fun j =>
      let row := signal_dfs.map (fun s => s.getD j 0)
      if sellMaskRow sellOp row then (-1 : ℚ)
      else if buyMaskRow buyOp row then 1
      else 0)).length := by
    simpa using h
  show (replaceZeroFfill 0 _).getD i 0 = _
  rw [replaceZeroFfill_getD _ 0 i hraw, combine_raw_getD signal_dfs buyOp sellOp i h]
  by_cases hs : SellCondition signal_dfs sellOp i
  · simp [hs]
  · by_cases hb : BuyCondition signal_dfs buyOp i
    · simp [hs, hb]
    · simp [hs, hb, combine_signals]

theorem combine_zero_iff (signal_dfs : List (List ℚ)) (buyOp sellOp : LogicOp) :
    ∀ i, i < (signal_dfs.headD []).length →
      ((combine_signals signal_dfs buyOp sellOp).getD i 0 = 0 ↔
        ∀ j, j ≤ i → ¬ SellCondition signal_dfs sellOp j ∧
          ¬ BuyCondition signal_dfs buyOp j) := by
  intro i
  induction i using Nat.strong_induction_on with
  | _ i ih =>
    intro hi
    rw [combine_recurrence signal_dfs buyOp sellOp i hi]
    by_cases hs : SellCondition signal_dfs sellOp i
    · rw [if_pos hs]
      constructor
      · intro hcontra; norm_num at hcontra
      · intro hall; exact absurd hs (hall i le_rfl).1
    · rw [if_neg hs]
      by_cases hb : BuyCondition signal_dfs buyOp i
      · rw [if_pos hb]
        constructor
        · intro hcontra; norm_num at hcontra
        · intro hall; exact absurd hb (hall i le_rfl).2
      · rw [if_neg hb]
        rcases Nat.eq_zero_or_pos i with hz | hpos
        · subst hz
          simp only [if_pos rfl]
          constructor
          · intro _ j hj
            have : j = 0 := Nat.le_zero.mp hj
            subst this
            exact ⟨hs, hb⟩
          · intro _; rfl
        · rw [if_neg (Nat.pos_iff_ne_zero.mp hpos)]
          have hi' : i - 1 < (signal_dfs.headD []).length := by omega
          rw [ih (i - 1) (by omega) hi']
          constructor
          · intro hall j hj
            rcases Nat.lt_or_ge j i with hji | hji
            · exact hall j (by omega)
            · have : j = i := by omega
              subst this
              exact ⟨hs, hb⟩
          · intro hall j hj
            exact hall j (by omega)

/-- Checks that zeros occur only as a leading prefix of a signal series
(once a nonzero signal has fired, every later entry is nonzero) — the form
guaranteed by every signal source of the repository, which resolves its own
zeros with `replace(0, method="ffill")` before returning. -/
def zerosLeadOnly : List ℚ → Bool
  | [] => true
  | x :: xs => if x = 0 then zerosLeadOnly xs else xs.all (fun y => decide (y ≠ 0))

theorem fillPositions_of_all_ne (xs : List ℚ) :
    ∀ prev : ℚ, xs.all (fun y => decide (y ≠ 0)) = true → fillPositions prev xs = xs := by
  induction xs with
  | nil => intro prev _; rfl
  | cons x xs ih =>
    intro prev h
    rw [List.all_cons, Bool.and_eq_true, decide_eq_true_eq] at h
    simp only [fillPositions, if_pos h.1]
    rw [ih x h.2]

theorem fillPositions_of_zerosLeadOnly (xs : List ℚ)
    (h : zerosLeadOnly xs = true) : fillPositions 0 xs = xs := by
  induction xs with
  | nil => rfl
  | cons x xs ih =>
    by_cases hx : x = 0
    · subst hx
      simp only [zerosLeadOnly, if_pos rfl] at h
      simp only [fillPositions, ne_eq, not_true_eq_false, if_neg, ite_self]
      rw [ih h]
    · simp only [zerosLeadOnly, if_neg hx] at h
      simp only [fillPositions, if_pos hx]
      rw [fillPositions_of_all_ne xs x h]

theorem fillPositions_head (s0 : ℚ) (rest : List ℚ)
    (h : zerosLeadOnly (s0 :: rest) = true) : fillPositions s0 rest = rest := by
  by_cases hs : s0 = 0
  · subst hs
    simp only [zerosLeadOnly, if_pos rfl] at h
    exact fillPositions_of_zerosLeadOnly rest h
  · simp only [zerosLeadOnly, if_neg hs] at h
    exact fillPositions_of_all_ne rest s0 h

theorem seriesFfill_fillna_map_some (xs : List ℚ) :
    ∀ prev : Option ℚ, seriesFillna0 (seriesFfill prev (xs.map some)) = xs := by
  induction xs with
  | nil => intro prev; rfl
  | cons x xs ih =>
    intro prev
    simp only [List.map_cons, seriesFfill, seriesFillna0, List.map_cons, Option.getD_some]
    rw [show List.map (fun x => Option.getD x 0) (seriesFfill (some x) (xs.map some)) =
      seriesFillna0 (seriesFfill (some x) (xs.map some)) from rfl, ih (some x)]

theorem cumprodGo_getLast (xs : List ℚ) :
    ∀ acc : ℚ, xs ≠ [] → (cumprodGo acc xs).getLast? = some (acc * xs.prod) := by
  induction xs with
  | nil => intro acc h; exact absurd rfl h
  | cons x xs ih =>
    intro acc _
    cases xs with
    | nil => simp [cumprodGo]
    | cons y ys =>
      have hstep : cumprodGo acc (x :: y :: ys) =
          (acc * x) :: (acc * x * y) :: cumprodGo (acc * x * y) ys := rfl
      have hstep2 : cumprodGo (acc * x) (y :: ys) =
          (acc * x * y) :: cumprodGo (acc * x * y) ys := rfl
      rw [hstep, List.getLast?_cons_cons, ← hstep2, ih (acc * x) (by simp)]
      simp [List.prod_cons, mul_assoc]

theorem match_cumprod_getLast (combined : List ℚ) (cap : ℚ) :
    (match (cumprod combined).getLast? with
     | some x => cap * x
     | none => cap) = cap * combined.prod := by
  cases combined with
  | nil => simp [cumprod, cumprodGo]
  | cons a l =>
    rw [cumprod, cumprodGo_getLast (a :: l) 1 (by simp)]
    simp

/-- The Numba performance kernel and the pandas cumulative-product pipeline
agree on identical position/change arrays (the final portfolio value is the
product of the combined factors either way). -/
theorem calculate_performance_eq_reference (prices pos chg : List ℚ) (cap : ℚ) :
    calculate_performance prices pos chg TRADING_FEE_PCT cap =
      referencePerformance (pctChange prices) pos chg cap := by
  simp only [calculate_performance, referencePerformance]
  rw [match_cumprod_getLast]

theorem sum_map_const_nat {α : Type} (l : List α) (c : ℕ) :
    (l.map (fun _ => c)).sum = l.length * c := by
  induction l with
  | nil => simp
  | cons x l ih => simp [ih, Nat.succ_mul, Nat.add_comm]

theorem valuesProduct_length (L : List (List ℚ)) :
    (valuesProduct L).length = (L.map List.length).prod := by
  induction L with
  | nil => rfl
  | cons vs rest ih =>
    simp only [valuesProduct, List.length_flatMap, Function.comp_def, List.length_map]
    rw [sum_map_const_nat, ih]
    simp [List.prod_cons]

theorem mem_valuesProduct (L : List (List ℚ)) :
    ∀ l : List ℚ, l ∈ valuesProduct L ↔ List.Forall₂ (fun v vl => v ∈ vl) l L := by
  induction L with
  | nil => intro l; simp [valuesProduct, List.forall₂_nil_right_iff]
  | cons vs rest ih =>
    intro l
    simp only [valuesProduct, List.mem_flatMap, List.mem_map]
    constructor
    · rintro ⟨v, hv, t, ht, rfl⟩
      exact List.Forall₂.cons hv ((ih t).mp ht)
    · intro h
      cases h with
      | cons hv ht => exact ⟨_, hv, _, (ih _).mpr ht, rfl⟩

theorem valuesProduct_mem_length (L : List (List ℚ)) (l : List ℚ)
    (h : l ∈ valuesProduct L) : l.length = L.length :=
  ((mem_valuesProduct L l).mp h).length_eq

theorem valuesProduct_nodup (L : List (List ℚ)) (h : ∀ vl ∈ L, vl.Nodup) :
    (valuesProduct L).Nodup := by
  induction L with
  | nil => simp [valuesProduct]
  | cons vs rest ih =>
    simp only [valuesProduct]
    rw [List.nodup_flatMap]
    constructor
    · intro v _
      exact (ih (fun vl hvl => h vl (by simp [hvl]))).map
        (fun t t' ht => by injection ht)
    · have hvs : vs.Nodup := h vs (by simp)
      refine hvs.imp ?_
      intro v v' hne
      rw [Function.onFun, List.disjoint_left]
      rintro x hx hx'
      rcases List.mem_map.mp hx with ⟨t, _, rfl⟩
      rcases List.mem_map.mp hx' with ⟨t', _, heq⟩
      injection heq with h1 _
      exact hne h1.symm

theorem prod_pos_of_pos (l : List ℕ) (h : ∀ x ∈ l, 0 < x) : 0 < l.prod := by
  induction l with
  | nil => simp
  | cons x l ih =>
    simp only [List.prod_cons]
    exact Nat.mul_pos (h x (by simp)) (ih fun y hy => h y (by simp [hy]))

end CryptoBacktest

namespace CryptoBacktest

/-! ### Claim theorems -/

/-- C5: running the backtest simulator on an empty price series returns
exactly `(0.0, initial_capital, 0)` (the optimized path raises on the empty
frame and the pandas fallback produces the defined zero-return result), and
`buy_and_hold` on an empty series returns `(0.0, initial_capital)`; the
empty input is a defined result, not an error (nonzero capital, since Python
would raise `ZeroDivisionError` on `0/0`). -/
theorem backtest_empty_series (initial_capital : ℚ) (mhp : ℕ)
    (pre : Option (List ℚ)) (hcap : initial_capital ≠ 0) :
    backtest_strategy [] [] initial_capital mhp pre = (0, initial_capital, 0) ∧
      buy_and_hold [] initial_capital = (0, initial_capital) := by
  constructor
  · show (match backtest_strategy_optimized [] [] initial_capital mhp pre with
      | some r => r
      | none => backtest_strategy_reference [] [] initial_capital mhp pre) =
        (0, initial_capital, 0)
    have hopt : backtest_strategy_optimized [] [] initial_capital mhp pre = none := rfl
    rw [hopt]
    show backtest_strategy_reference [] [] initial_capital mhp pre = (0, initial_capital, 0)
    unfold backtest_strategy_reference referencePerformance
    cases pre <;>
      simp [pctChange, seriesFillna0, seriesFfill, diffSeries, apply_min_holding_period,
        minHoldingGo, shiftOne, cumprod, cumprodGo, div_self hcap]
  · rfl

/-- C5 witness: the empty-series result at `initial_capital = 10000`,
`min_holding_period = 5`, no precomputed returns. -/
theorem backtest_empty_series_witness :
    (10000 : ℚ) ≠ 0 ∧
      (backtest_strategy [] [] 10000 5 none = (0, 10000, 0) ∧
        buy_and_hold [] 10000 = (0, 10000)) :=
  ⟨by norm_num, backtest_empty_series 10000 5 none (by norm_num)⟩

/-- C7: calling `SignalCache.get` a second time with the identical cache key
(strategy id, parameter set, close-price sequence) returns the stored value,
leaves the cache unchanged, and does not invoke the strategy function (the
invoked flag is `false`): the second call is a cache hit. -/
theorem cache_get_roundtrip {V : Type} (c : SignalCache V) (f : CacheKey → V)
    (k : CacheKey) :
    (c.get f k).2.1.get f k = ((c.get f k).1, (c.get f k).2.1, false) := by
  cases h : assocFind k c.cache with
  | some v => simp [SignalCache.get, h]
  | none =>
    have hfind :
        assocFind k (((if c.max_size ≤ c.cache.length then
            c.cache.drop (c.max_size / 2) else c.cache)) ++ [(k, f k)]) = some (f k) := by
      apply assocFind_append_self
      by_cases hfull : c.max_size ≤ c.cache.length
      · rw [if_pos hfull]; exact assocFind_drop_of_none k c.cache _ h
      · rw [if_neg hfull]; exact h
    simp [SignalCache.get, h, hfind]

/-- C6 counterexample: with zero candidate evaluations,
`optimize_strategy_combo`'s reduction returns `best_score = float("-inf")`
(modelled `⊥`): the negative-infinity sentinel does surface to the caller,
contrary to the claim. -/
theorem combo_empty_search_score_bot :
    (comboSelectBest ([] : List (Params × ℚ × ℚ × ℕ))).score = ⊥ := rfl

/-- C6 (amended): with zero successful evaluations
`optimize_strategy_parallel` returns the explicit fallback
`({}, 0.0, initial_capital, 0)` (a fabricated zero score), while
`optimize_strategy_combo` returns `best_params_combo = None` together with
`best_score = -inf`, portfolio `0` and `0` trades — the `-inf` sentinel
surfaces and `None` params are the only no-result marker; the score is `⊥`
exactly when the evaluation list is empty. -/
theorem optimizer_empty_search_behavior (initial_capital : ℚ) :
    parallelSelectBest [] initial_capital = ([], 0, initial_capital, 0) ∧
      (∀ evals : List (Params × ℚ × ℚ × ℕ),
        ((comboSelectBest evals).score = ⊥ ↔ evals = [])) ∧
      (comboSelectBest ([] : List (Params × ℚ × ℚ × ℕ))).params = none := by
  refine ⟨rfl, ?_, rfl⟩
  intro evals
  constructor
  · intro h
    cases evals with
    | nil => rfl
    | cons e rest =>
      exfalso
      apply comboSelectBest_foldl_ne_bot
        (rest)
        ({ params := some e.1, score := ((e.2.1 : ℚ) : WithBot ℚ),
           portfolio := e.2.2.1, trades := e.2.2.2 })
        (by simp )
      have hstep : comboSelectBest (e :: rest) =
          rest.foldl
            (fun best x =>
              if best.score < ((x.2.1 : ℚ) : WithBot ℚ) then
                ({ params := some x.1, score := ((x.2.1 : ℚ) : WithBot ℚ),
                   portfolio := x.2.2.1, trades := x.2.2.2 } : ComboBest Params)
              else best)
            ({ params := some e.1, score := ((e.2.1 : ℚ) : WithBot ℚ),
               portfolio := e.2.2.1, trades := e.2.2.2 }) := by
        simp [comboSelectBest, WithBot.bot_lt_coe]
      rw [← hstep]
      exact h
  · intro h; subst h; rfl

/-- C8 counterexample: with capacity `max_size = 1`, two misses on distinct
keys leave 2 stored entries — the "oldest half" is `1 // 2 = 0` entries, so
nothing is evicted and the stored-entry count exceeds `max_size`. -/
theorem cache_capacity_one_exceeded :
    (runCacheCalls (fun _ => (0 : ℚ)) ⟨[], 1⟩
      [("a", [], []), ("b", [], [])]).cache.length = 2 := by decide

/-- C8 (amended): for every capacity `max_size ≥ 2` and every sequence of
`SignalCache.get` calls starting from an empty cache, the stored-entry count
never exceeds `max_size`; and whenever the count has reached `max_size` at
insertion time (a miss), the oldest `max_size // 2` entries (by insertion
order) are evicted before the new entry is stored.  (For `max_size ≤ 1` the
bound fails, since "half" rounds down to zero evictions.) -/
theorem cache_size_bounded {V : Type} (strategyFn : CacheKey → V) (ms : ℕ)
    (hms : 2 ≤ ms) (ks : List CacheKey) :
    (runCacheCalls strategyFn (⟨[], ms⟩ : SignalCache V) ks).cache.length ≤ ms ∧
      (∀ (c : SignalCache V) (k : CacheKey), assocFind k c.cache = none →
        c.max_size ≤ c.cache.length →
        ((c.get strategyFn k).2.1).cache =
          c.cache.drop (c.max_size / 2) ++ [(k, strategyFn k)]) := by
  constructor
  · exact (runCacheCalls_bound strategyFn ks ⟨[], ms⟩ hms (by simp)).1
  · intro c k hmiss hfull
    simp [SignalCache.get, hmiss, hfull]

/-- C8 witness: capacity 2, three misses on distinct keys; the bound `≤ 2`
holds. -/
theorem cache_size_bounded_witness :
    2 ≤ 2 ∧
      (runCacheCalls (fun _ => (0 : ℚ)) (⟨[], 2⟩ : SignalCache ℚ)
        [("a", [], []), ("b", [], []), ("c", [], [])]).cache.length ≤ 2 :=
  ⟨by norm_num,
    (cache_size_bounded (fun _ => (0 : ℚ)) 2 (by norm_num)
      [("a", [], []), ("b", [], []), ("c", [], [])]).1⟩

/-- C1 counterexample: on the well-formed input `close_price = [100, 110]`,
`signal = [1, 0]` (a zero after a nonzero signal), `initial_capital = 10000`,
`min_holding_period = 0`, the optimized path forward-fills the zero (position
`[1, 1]`, 0 trades, return `1/10`) while the reference pandas path's
`ffill()` fills only NaN and leaves the zero (position `[1, 0]`, 1 fee-paying
trade, return `989/10000`): the two implementations disagree. -/
theorem backtest_paths_diverge :
    backtest_strategy_optimized [100, 110] [1, 0] 10000 0 none ≠
      some (backtest_strategy_reference [100, 110] [1, 0] 10000 0 none) := by
  have h1 : backtest_strategy_optimized [100, 110] [1, 0] 10000 0 none =
      some (1 / 10, 11000, 0) := by
    norm_num [backtest_strategy_optimized, calculate_performance, fillPositions, diffSeries,
      pctChange, shiftOne, TRADING_FEE_PCT, List.countP_cons, List.countP_nil]
  have h2 : backtest_strategy_reference [100, 110] [1, 0] 10000 0 none =
      (989 / 10000, 10989, 1) := by
    norm_num [backtest_strategy_reference, referencePerformance, seriesFillna0, seriesFfill,
      diffSeries, pctChange, shiftOne, cumprod, cumprodGo, TRADING_FEE_PCT,
      List.countP_cons, List.countP_nil]
  rw [h1, h2]
  intro h
  have := (Prod.ext_iff.mp (Option.some.inj h)).2
  simp at this

/-- C9 counterexample: a present-but-empty candidate list produces the empty
expansion — `generate_param_dicts` on the grid mapping `"a"` to `[]` returns
`[]`, of length `0 < 1`, so the result is not always at least one candidate. -/
theorem generate_param_dicts_empty_values :
    generate_param_dicts [("a", [])] = [] := rfl

/-- C2: after the minimum-holding-period pass, an index of the change array
is nonzero (an accepted trade) exactly when the incoming change was nonzero
and the gap from every earlier accepted trade — in particular the last one —
is at least `min_holding_period` (there being no prior accepted trade leaves
the condition vacuously true, and the last-accepted index advances only on
acceptance); consequently any two accepted trades at indices `i1 < i2`
satisfy `i2 - i1 ≥ min_holding_period`. -/
theorem min_holding_period_invariant (pos chg : List ℚ) (mhp : ℕ)
    (hmhp : 0 < mhp) (hlen : pos.length = chg.length) :
    (∀ i, ((apply_min_holding_period pos chg mhp).2.getD i 0 ≠ 0 ↔
      (chg.getD i 0 ≠ 0 ∧ ∀ j, j < i →
        (apply_min_holding_period pos chg mhp).2.getD j 0 ≠ 0 → mhp ≤ i - j))) ∧
    (∀ i1 i2, i1 < i2 →
      (apply_min_holding_period pos chg mhp).2.getD i1 0 ≠ 0 →
      (apply_min_holding_period pos chg mhp).2.getD i2 0 ≠ 0 → mhp ≤ i2 - i1) := by
  simp only [apply_min_holding_period]
  have hmain := minHoldingGo_acceptance mhp chg pos 0 none (pos.getLastD 0) hlen
    (fun l hl => nomatch hl)
  have hchar : ∀ i, ((minHoldingGo mhp 0 none (pos.getLastD 0) pos chg).2.getD i 0 ≠ 0 ↔
      (chg.getD i 0 ≠ 0 ∧ ∀ j, j < i →
        (minHoldingGo mhp 0 none (pos.getLastD 0) pos chg).2.getD j 0 ≠ 0 →
          mhp ≤ i - j)) := by
    intro i
    constructor
    · intro h
      obtain ⟨h1, _, h3⟩ := (hmain i).mp h
      exact ⟨h1, h3⟩
    · rintro ⟨h1, h3⟩
      refine (hmain i).mpr ⟨h1, ?_, h3⟩
      intro l hl
      exact nomatch hl
  refine ⟨hchar, ?_⟩
  intro i1 i2 h12 hi1 hi2
  exact ((hchar i2).mp hi2).2 i1 h12 hi1

/-- C2 witness: the spec scenario — `min_holding_period = 3`, raw changes
nonzero at indices 2, 3, 7; indices 2 and 7 stay accepted and their gap is
at least 3. -/
theorem min_holding_period_invariant_witness :
    0 < 3 ∧
      ([0, 0, 1, 1, 1, 1, 1, 1] : List ℚ).length =
        ([0, 0, 1, 1, 0, 0, 0, 1] : List ℚ).length ∧
      3 ≤ 7 - 2 :=
  ⟨by norm_num, by norm_num,
    (min_holding_period_invariant [0, 0, 1, 1, 1, 1, 1, 1] [0, 0, 1, 1, 0, 0, 0, 1] 3
      (by norm_num) (by norm_num)).2 2 7 (by norm_num) (by decide) (by decide)⟩

/-- C10: the minimum-holding-period pass is frame-preserving — every index
either keeps both its position and change values exactly as they were before
the pass, or is a cancelled trade attempt (input change nonzero, index
positive) whose change is set to 0 and whose position is copied from the
previous index's (output) position; in particular indices after a cancelled
flip are not reverted. -/
theorem min_holding_period_frame (pos chg : List ℚ) (mhp : ℕ)
    (hlen : pos.length = chg.length) :
    ∀ k,
      (((apply_min_holding_period pos chg mhp).1.getD k 0 = pos.getD k 0 ∧
        (apply_min_holding_period pos chg mhp).2.getD k 0 = chg.getD k 0) ∨
       (chg.getD k 0 ≠ 0 ∧ 0 < k ∧
        (apply_min_holding_period pos chg mhp).2.getD k 0 = 0 ∧
        (apply_min_holding_period pos chg mhp).1.getD k 0 =
          (apply_min_holding_period pos chg mhp).1.getD (k - 1) 0)) := by
  intro k
  simp only [apply_min_holding_period]
  rcases k with _ | k
  · exact Or.inl (minHoldingGo_none_head mhp 0 (pos.getLastD 0) pos chg)
  · rcases minHoldingGo_frame mhp chg pos 0 none (pos.getLastD 0) (k + 1) with
      h | ⟨h1, h2, h3⟩
    · exact Or.inl h
    · right
      refine ⟨h1, Nat.succ_pos k, h2, ?_⟩
      rw [if_neg (Nat.succ_ne_zero k)] at h3
      simpa using h3

/-- C3: at every aligned index, `combine_signals` returns -1 whenever the
sell condition (all/any input equal to -1) holds — even if the buy condition
also holds, sell taking precedence — +1 when the buy condition (all/any input
equal to +1) holds and the sell condition does not, and otherwise the
forward-filled previous resolved value (0 at index 0); moreover the output is
0 exactly when no index up to this one satisfied either condition, i.e. zeros
occur only before any resolved value exists. -/
theorem combine_signals_spec (signal_dfs : List (List ℚ)) (buyOp sellOp : LogicOp)
    (hne : signal_dfs ≠ [])
    (hlen : ∀ s ∈ signal_dfs, s.length = (signal_dfs.headD []).length) :
    ∀ i, i < (signal_dfs.headD []).length →
      ((combine_signals signal_dfs buyOp sellOp).getD i 0 =
        (if SellCondition signal_dfs sellOp i then -1
         else if BuyCondition signal_dfs buyOp i then 1
         else if i = 0 then 0
         else (combine_signals signal_dfs buyOp sellOp).getD (i - 1) 0)) ∧
      ((combine_signals signal_dfs buyOp sellOp).getD i 0 = 0 ↔
        ∀ j, j ≤ i → ¬ SellCondition signal_dfs sellOp j ∧
          ¬ BuyCondition signal_dfs buyOp j) :=
  fun i hi =>
    ⟨combine_recurrence signal_dfs buyOp sellOp i hi,
     combine_zero_iff signal_dfs buyOp sellOp i hi⟩

/-- C3 witness: the spec scenario — series `[1, 1, -1]` and `[1, -1, -1]`
with `buy_op = AND`, `sell_op = AND`; at index 2 the sell condition holds and
the combined signal is -1. -/
theorem combine_signals_spec_witness :
    ([[1, 1, -1], [1, -1, -1]] : List (List ℚ)) ≠ [] ∧
      (combine_signals [[1, 1, -1], [1, -1, -1]] .AND .AND).getD 2 0 = -1 := by
  constructor
  · simp
  · have h := (combine_signals_spec [[1, 1, -1], [1, -1, -1]] .AND .AND
      (by simp) (by decide) 2 (by norm_num)).1
    rw [if_pos (show SellCondition [[1, 1, -1], [1, -1, -1]] .AND 2 by decide)] at h
    exact h

/-- C1 (amended): the optimized and reference backtest implementations return
equal results on every non-empty input whose signal has zeros only as a
leading prefix (the form every signal source of this repository produces) and
whose `precomputed_returns`, if supplied, equals the close-price pct-change;
in general they differ, because the reference path's `ffill()` fills only NaN
and leaves interior zeros in place while the optimized path forward-fills
zeros. -/
theorem backtest_paths_equivalent (prices signal : List ℚ) (cap : ℚ) (mhp : ℕ)
    (pre : Option (List ℚ)) (hne : signal ≠ [])
    (hzp : zerosLeadOnly signal = true)
    (hpre : pre = none ∨ pre = some (pctChange prices)) :
    backtest_strategy_optimized prices signal cap mhp pre =
      some (backtest_strategy_reference prices signal cap mhp pre) := by
  cases signal with
  | nil => exact absurd rfl hne
  | cons s0 rest =>
    rcases hpre with rfl | rfl <;>
    · simp only [backtest_strategy_optimized, backtest_strategy_reference]
      rw [fillPositions_head s0 rest hzp, seriesFfill_fillna_map_some (s0 :: rest) none,
        calculate_performance_eq_reference]

/-- C1 amended witness: a leading-zero signal `[0, 1, -1]` on prices
`[100, 110, 99]` with `min_holding_period = 1`; the two implementations
agree. -/
theorem backtest_paths_equivalent_witness :
    ([0, 1, -1] : List ℚ) ≠ [] ∧ zerosLeadOnly [0, 1, -1] = true ∧
      backtest_strategy_optimized [100, 110, 99] [0, 1, -1] 10000 1 none =
        some (backtest_strategy_reference [100, 110, 99] [0, 1, -1] 10000 1 none) :=
  ⟨by simp, by decide,
    backtest_paths_equivalent [100, 110, 99] [0, 1, -1] 10000 1 none
      (by simp) (by decide) (Or.inl rfl)⟩

/-- C4: the candidate score equals
`(1 - w) * total_return + w * sharpe - penalty_factor * num_trades` with
`w = sharpe_ratio_weight`, where `sharpe` is the mean of the lagged-position
times returns series divided by its standard deviation; and whenever that
standard deviation is 0 (a constant series) or undefined (fewer than two
observations), the Sharpe term contributes exactly 0 to the score. -/
theorem optimizer_score_formula (signal returns : List ℚ) (sd : Option ℚ)
    (w penalty perf : ℚ) (num_trades : ℕ)
    (hsd : IsStd (laggedReturns signal returns) sd) :
    (evaluateScore signal returns sd w penalty perf num_trades =
      (1 - w) * perf +
        w * sharpeFromStd (seriesMean (laggedReturns signal returns)) sd -
        penalty * (num_trades : ℚ)) ∧
    (((laggedReturns signal returns).length < 2 ∨
        sumSqDev (laggedReturns signal returns) = 0) →
      evaluateScore signal returns sd w penalty perf num_trades =
        (1 - w) * perf - penalty * (num_trades : ℚ)) := by
  constructor
  · rfl
  · intro hdeg
    have hzero : sharpeFromStd (seriesMean (laggedReturns signal returns)) sd = 0 := by
      rcases Nat.lt_or_ge (laggedReturns signal returns).length 2 with hlt | hge
      · rw [hsd.1 hlt]; rfl
      · obtain ⟨s, hs, hs0, hsq⟩ := hsd.2 hge
        have hvar : sumSqDev (laggedReturns signal returns) = 0 := by
          rcases hdeg with hlt2 | hvar
          · omega
          · exact hvar
        have hn1 : (1 : ℚ) ≤ ((laggedReturns signal returns).length : ℚ) - 1 := by
          have h2 : (2 : ℚ) ≤ ((laggedReturns signal returns).length : ℚ) := by
            exact_mod_cast hge
          linarith
        have hs2 : s ^ 2 = 0 := by
          rcases mul_eq_zero.mp (hsq.trans hvar) with h | h
          · exact h
          · linarith
        have hs' : s = 0 := by
          rw [pow_eq_zero_iff (by norm_num : (2 : ℕ) ≠ 0)] at hs2
          exact hs2
        subst hs'
        rw [hs]
        simp [sharpeFromStd]
    have hform : evaluateScore signal returns sd w penalty perf num_trades =
        (1 - w) * perf +
          w * sharpeFromStd (seriesMean (laggedReturns signal returns)) sd -
          penalty * (num_trades : ℚ) := rfl
    rw [hform, hzero]
    ring

/-- C4 witness: signal `[1, 1, 1]`, returns `[0, 0, 0]` — the lagged-returns
series `[0, 0, 0]` is constant, so `std = 0` (`IsStd` is satisfied by
`some 0`) and the score degenerates to the return/penalty part. -/
theorem optimizer_score_formula_witness :
    IsStd (laggedReturns [1, 1, 1] [0, 0, 0]) (some 0) ∧
      evaluateScore [1, 1, 1] [0, 0, 0] (some 0) (1 / 2) (1 / 100) (3 / 10) 4 =
        (1 - 1 / 2) * (3 / 10) - (1 / 100) * (4 : ℚ) := by
  have hstd : IsStd (laggedReturns [1, 1, 1] [0, 0, 0]) (some 0) := by
    constructor
    · intro h
      norm_num [laggedReturns, shiftOne] at h
    · intro _
      refine ⟨0, rfl, le_refl 0, ?_⟩
      norm_num [laggedReturns, shiftOne, sumSqDev, seriesMean]
  refine ⟨hstd, ?_⟩
  exact (optimizer_score_formula [1, 1, 1] [0, 0, 0] (some 0)
      (1 / 2) (1 / 100) (3 / 10) 4 hstd).2
    (Or.inr (by norm_num [laggedReturns, shiftOne, sumSqDev, seriesMean]))

/-- C9 (amended): `generate_param_dicts` returns `[{}]` on an empty or
missing grid and otherwise exactly the Cartesian product of the per-name
candidate lists — the result length equals the product of the list lengths,
membership is exactly one dict per member-wise choice of values, and the
dicts are pairwise distinct when the candidate lists are duplicate-free; the
length is at least 1 exactly when every candidate list is nonempty (a
present-but-empty list yields the empty expansion, which call sites in
`combo_optimizer.py` patch back to `[{}]`). -/
theorem generate_param_dicts_spec :
    generate_param_dicts [] = [[]] ∧
    (∀ grid : List (String × List ℚ),
      (generate_param_dicts grid).length = (grid.map (fun p => p.2.length)).prod) ∧
    (∀ grid : List (String × List ℚ), (∀ p ∈ grid, p.2 ≠ []) →
      1 ≤ (generate_param_dicts grid).length) ∧
    (∀ (grid : List (String × List ℚ)) (d : Params),
      d ∈ generate_param_dicts grid ↔
        ∃ vals : List ℚ, List.Forall₂ (fun v vl => v ∈ vl) vals (grid.map Prod.snd) ∧
          d = List.zip (grid.map Prod.fst) vals) ∧
    (∀ grid : List (String × List ℚ), (∀ p ∈ grid, p.2.Nodup) →
      (generate_param_dicts grid).Nodup) := by
  have hlength : ∀ grid : List (String × List ℚ),
      (generate_param_dicts grid).length = (grid.map (fun p => p.2.length)).prod := by
    intro grid
    cases grid with
    | nil => simp [generate_param_dicts]
    | cons g gs =>
      show ((valuesProduct ((g :: gs).map Prod.snd)).map _).length = _
      rw [List.length_map, valuesProduct_length, List.map_map]
      rfl
  have hmem : ∀ (grid : List (String × List ℚ)) (d : Params),
      d ∈ generate_param_dicts grid ↔
        ∃ vals : List ℚ, List.Forall₂ (fun v vl => v ∈ vl) vals (grid.map Prod.snd) ∧
          d = List.zip (grid.map Prod.fst) vals := by
    intro grid d
    cases grid with
    | nil =>
      simp only [generate_param_dicts, List.mem_singleton, List.map_nil,
        List.forall₂_nil_right_iff]
      constructor
      · rintro rfl; exact ⟨[], rfl, rfl⟩
      · rintro ⟨vals, rfl, rfl⟩; rfl
    | cons g gs =>
      show d ∈ (valuesProduct _).map _ ↔ _
      rw [List.mem_map]
      constructor
      · rintro ⟨vals, hv, rfl⟩
        exact ⟨vals, (mem_valuesProduct _ vals).mp hv, rfl⟩
      · rintro ⟨vals, hv, rfl⟩
        exact ⟨vals, (mem_valuesProduct _ vals).mpr hv, rfl⟩
  refine ⟨rfl, hlength, ?_, hmem, ?_⟩
  · intro grid hne
    rw [hlength grid]
    refine prod_pos_of_pos _ ?_
    intro x hx
    rcases List.mem_map.mp hx with ⟨p, hp, rfl⟩
    exact List.length_pos.mpr (hne p hp)
  · intro grid hnodup
    cases grid with
    | nil => simp [generate_param_dicts]
    | cons g gs =>
      show ((valuesProduct ((g :: gs).map Prod.snd)).map _).Nodup
      have hvp : (valuesProduct ((g :: gs).map Prod.snd)).Nodup := by
        refine valuesProduct_nodup _ ?_
        intro vl hvl
        rcases List.mem_map.mp hvl with ⟨p, hp, rfl⟩
        exact hnodup p hp
      refine hvp.map_on ?_
      intro x hx y hy hxy
      have hlx : x.length = ((g :: gs).map Prod.snd).length :=
        valuesProduct_mem_length _ x hx
      have hly : y.length = ((g :: gs).map Prod.snd).length :=
        valuesProduct_mem_length _ y hy
      have hkx : x.length ≤ ((g :: gs).map Prod.fst).length := by
        simp only [List.length_map] at hlx ⊢
        omega
      have hky : y.length ≤ ((g :: gs).map Prod.fst).length := by
        simp only [List.length_map] at hly ⊢
        omega
      calc x = (List.zip ((g :: gs).map Prod.fst) x).map Prod.snd :=
            (List.map_snd_zip _ _ hkx).symm
        _ = (List.zip ((g :: gs).map Prod.fst) y).map Prod.snd := by rw [hxy]
        _ = y := List.map_snd_zip _ _ hky

/-- C9 witness: the grid mapping `"a"` to `[1, 2]` and `"b"` to `[3]` has
only nonempty candidate lists, so the expansion has at least one candidate
(it has exactly 2). -/
theorem generate_param_dicts_spec_witness :
    (∀ p ∈ ([("a", [1, 2]), ("b", [3])] : List (String × List ℚ)), p.2 ≠ []) ∧
      1 ≤ (generate_param_dicts [("a", [1, 2]), ("b", [3])]).length :=
  ⟨by decide, generate_param_dicts_spec.2.2.1 [("a", [1, 2]), ("b", [3])] (by decide)⟩

/-- C10 witness: positions `[0, 1, 2]`, changes `[0, 1, 1]`,
`min_holding_period = 2` — index 2 is cancelled: its change becomes 0 and its
position is copied from index 1. -/
theorem min_holding_period_frame_witness :
    ([0, 1, 2] : List ℚ).length = ([0, 1, 1] : List ℚ).length ∧
      (((apply_min_holding_period [0, 1, 2] [0, 1, 1] 2).1.getD 2 0 =
          ([0, 1, 2] : List ℚ).getD 2 0 ∧
        (apply_min_holding_period [0, 1, 2] [0, 1, 1] 2).2.getD 2 0 =
          ([0, 1, 1] : List ℚ).getD 2 0) ∨
       (([0, 1, 1] : List ℚ).getD 2 0 ≠ 0 ∧ 0 < 2 ∧
        (apply_min_holding_period [0, 1, 2] [0, 1, 1] 2).2.getD 2 0 = 0 ∧
        (apply_min_holding_period [0, 1, 2] [0, 1, 1] 2).1.getD 2 0 =
          (apply_min_holding_period [0, 1, 2] [0, 1, 1] 2).1.getD (2 - 1) 0)) :=
  ⟨by norm_num, min_holding_period_frame [0, 1, 2] [0, 1, 1] 2 (by norm_num) 2⟩

end CryptoBacktest
